import Mathlib

/-!
Verification development for the simulated-annealing optimizer in `main.py`.

The core under specification consists of three Python functions:

* `f_variant1` — the fixed 3-variable objective (a log-transformed quartic
  bowl);
* `simulated_annealing` — one annealing run: a temperature-indexed while
  loop whose body performs `attempts_per_T` perturbation attempts, with a
  Metropolis acceptance rule, an append-only trace, and throttled
  progress/log notifications;
* `run_multiple_runs` — the multi-run orchestrator: it pops the notification
  intervals out of the caller's parameter dictionary, runs the engine once
  per run index, translates local progress into a global counter, and
  selects the best run by minimal final objective value.

Floating-point arithmetic is modelled by exact real arithmetic (`ℝ`).  The
random generator is modelled as an oracle: a counter plus two streams, one
of standard-normal 3-vectors (one consumed per attempted step) and one of
uniform draws (one consumed per Metropolis test).  Progress and log
callbacks are modelled by recording the argument of every invocation; the
`try/except: pass` wrappers in the source mean a callback's outcome can
never influence the engine, which the model reflects by ignoring sink
results everywhere except at the orchestrator's per-run completion message,
the one call site the source does not wrap.
-/

namespace SAV

/-- A 3-element real state vector (`np.ndarray` of shape `(3,)`). -/
structure Vec3 where
  x1 : ℝ
  x2 : ℝ
  x3 : ℝ

/-- Coordinatewise addition, `x_curr + step` in the source. -/
def Vec3.add (a b : Vec3) : Vec3 :=
  ⟨a.x1 + b.x1, a.x2 + b.x2, a.x3 + b.x3⟩

/-- Scaling a standard-normal draw by `scale`; `rng.normal(scale=s, size=3)`
is modelled as `s` times a standard-normal 3-vector from the oracle. -/
def Vec3.smul (c : ℝ) (v : Vec3) : Vec3 :=
  ⟨c * v.x1, c * v.x2, c * v.x3⟩

/-- The quartic expression inside the logarithm of `f_variant1`
(source line 18). -/
noncomputable def innerQuartic (x : Vec3) : ℝ :=
  0.4 * (x.x1 - 0.9) ^ 4 + 0.4 * (x.x2 - 0.6) ^ 4 + 0.6 * (x.x3 - 0.9) ^ 4 + 4.0

/-- `f_variant1` (source lines 15–19): `math.log` of the quartic bowl. -/
noncomputable def f_variant1 (x : Vec3) : ℝ :=
  Real.log (innerQuartic x)

/-- The random-source oracle: a single advancing counter over two streams.
`normalStream` yields the standard-normal 3-vector consumed by
`rng.normal(...)`; `uniformStream` yields the uniform draw consumed by
`rng.random()`.  Each call advances the counter by one, so consumption is
data-dependent exactly as in the source (a uniform draw happens only when
`df > 0`). -/
structure Rng where
  counter : Nat
  normalStream : Nat → Vec3
  uniformStream : Nat → ℝ

/-- One row of the trace: `(iter_count, T, *x_curr, f_curr, df)`
(source line 82). -/
structure TraceEntry where
  iter : Nat
  temp : ℝ
  x : Vec3
  fval : ℝ
  df : ℝ

/-- The keyword parameters of `simulated_annealing`, with the source's
defaults.  `max_iter`, `log_interval` and `progress_interval` are Python
ints and may be non-positive; `progress_interval` may also be `None`. -/
structure SAParams where
  T0 : ℝ := 100.0
  Tmin : ℝ := 1e-4
  alpha : ℝ := 0.95
  attempts_per_T : Nat := 200
  step_scale : ℝ := 0.5
  max_iter : Int := 20000
  log_interval : Int := 500
  progress_interval : Option Int := some 100

/-- The effective iteration cap: source lines 51–52 replace a missing or
non-positive `max_iter` by `10^9`. -/
def effMaxIter (p : SAParams) : Nat :=
  if p.max_iter ≤ 0 then 10 ^ 9 else p.max_iter.toNat

/-- The effective progress interval: source lines 55–56 replace a `None` or
non-positive `progress_interval` by `max(1, max_iter // 1000)` (computed
from the already-effective `max_iter`). -/
def effProgressInterval (p : SAParams) : Nat :=
  match p.progress_interval with
  | none => max 1 (effMaxIter p / 1000)
  | some v => if v ≤ 0 then max 1 (effMaxIter p / 1000) else v.toNat

/-- The loop-invariant data of one engine run: the objective, the step
scale, the cooling schedule parameters, the effective caps/intervals, and
whether a progress/log sink is configured (`progress_callback is not None`
/ `log_callback is not None`). -/
structure EngCtx where
  f : Vec3 → ℝ
  step_scale : ℝ
  Tmin : ℝ
  alpha : ℝ
  attempts_per_T : Nat
  effMax : Nat
  effPI : Nat
  logI : Int
  hasP : Bool
  hasL : Bool

/-- The mutable state of the engine loop: current point and score, current
temperature, the trace and iteration counter, the random source, and the
recorded arguments of every progress/log callback invocation made so far. -/
structure EngState where
  x_curr : Vec3
  f_curr : ℝ
  T : ℝ
  trace : List TraceEntry
  iter_count : Nat
  rng : Rng
  progressCalls : List (Nat × Nat)
  logCalls : List (Nat × ℝ × ℝ)

/-- One attempted step: the body of the inner `for` loop of
`simulated_annealing` (source lines 67–98, before the cap-break check).
Draw a Gaussian step, evaluate the candidate, accept by the Metropolis
rule (`df ≤ 0` unconditionally, otherwise one uniform draw against
`exp(-df/T)`), append one trace entry recording the post-decision state,
increment the iteration counter, and record the throttled progress/log
notifications.  `rng.normal(scale=step_scale)` is modelled as
`step_scale` times a standard-normal draw; NumPy additionally rejects a
*negative* `scale` with a `ValueError` at the draw itself, which this
model does not reproduce, so statements about runs that actually iterate
are only made for non-negative step scales. -/
noncomputable def attempt (c : EngCtx) (s : EngState) : EngState :=
  let draw := s.rng.normalStream s.rng.counter
  let rng1 : Rng := { s.rng with counter := s.rng.counter + 1 }
  let x_new := Vec3.add s.x_curr (Vec3.smul c.step_scale draw)
  let f_new := c.f x_new
  let df := f_new - s.f_curr
  let accRng : Bool × Rng :=
    if df ≤ 0 then (true, rng1)
    else
      let u := rng1.uniformStream rng1.counter
      let rng2 : Rng := { rng1 with counter := rng1.counter + 1 }
      if u < Real.exp (-df / s.T) then (true, rng2) else (false, rng2)
  let x_curr' := if accRng.1 then x_new else s.x_curr
  let f_curr' := if accRng.1 then f_new else s.f_curr
  let iter' := s.iter_count + 1
  let pCalls :=
    if c.hasP = true ∧ (iter' % c.effPI = 0 ∨ iter' = 1 ∨ c.effMax ≤ iter') then
      s.progressCalls ++ [(iter', c.effMax)]
    else s.progressCalls
  let lCalls :=
    if c.hasL = true ∧ (iter' : Int) % c.logI = 0 then
      s.logCalls ++ [(iter', s.T, f_curr')]
    else s.logCalls
  { x_curr := x_curr'
    f_curr := f_curr'
    T := s.T
    trace := s.trace ++ [⟨s.iter_count, s.T, x_curr', f_curr', df⟩]
    iter_count := iter'
    rng := accRng.2
    progressCalls := pCalls
    logCalls := lCalls }

/-- The inner `for _ in range(attempts_per_T)` loop (source lines 66–101):
after each attempt, break out as soon as the iteration counter reaches the
effective cap. -/
noncomputable def sweep (c : EngCtx) : Nat → EngState → EngState
  | 0, s => s
  | n + 1, s =>
    let s' := attempt c s
    if c.effMax ≤ s'.iter_count then s' else sweep c n s'

/-- The outer `while T > Tmin and iter_count < max_iter` loop (source
lines 65–102), with an explicit fuel bound on the number of temperature
levels; after each full sweep the temperature is multiplied by `alpha`. -/
noncomputable def saLoop (c : EngCtx) : Nat → EngState → EngState
  | 0, s => s
  | fuel + 1, s =>
    if c.Tmin < s.T ∧ s.iter_count < c.effMax then
      let s' := sweep c c.attempts_per_T s
      saLoop c fuel { s' with T := s'.T * c.alpha }
    else s

/-- The engine context built from the parameters, as `simulated_annealing`
does after its default-substitution preamble. -/
def mkCtx (f : Vec3 → ℝ) (p : SAParams) (hasP hasL : Bool) : EngCtx :=
  ⟨f, p.step_scale, p.Tmin, p.alpha, p.attempts_per_T,
    effMaxIter p, effProgressInterval p, p.log_interval, hasP, hasL⟩

/-- The engine state before the first attempt: `x_curr = x0`,
`f_curr = f(x_curr)`, `T = T0`, empty trace, iteration counter 0
(source lines 44–49). -/
def initState (f : Vec3 → ℝ) (x0 : Vec3) (T0 : ℝ) (rng : Rng) : EngState :=
  { x_curr := x0
    f_curr := f x0
    T := T0
    trace := []
    iter_count := 0
    rng := rng
    progressCalls := []
    logCalls := [] }

/-- The engine state after the run: the main loop applied to the initial
state. -/
noncomputable def finalState (fuel : Nat) (f : Vec3 → ℝ) (x0 : Vec3) (p : SAParams)
    (rng : Rng) (hasP hasL : Bool) : EngState :=
  saLoop (mkCtx f p hasP hasL) fuel (initState f x0 p.T0 rng)

/-- The result dictionary of `simulated_annealing` (source lines 104–106):
final point, final score, the full trace, plus the recorded notification
invocations. -/
structure SAResult where
  x : Vec3
  f : ℝ
  trace : List TraceEntry
  progressCalls : List (Nat × Nat)
  logCalls : List (Nat × ℝ × ℝ)

/-- `simulated_annealing` (source lines 21–106), over the random oracle and
with an explicit fuel bound on the number of temperature levels. -/
noncomputable def simulated_annealing (fuel : Nat) (f : Vec3 → ℝ) (x0 : Vec3)
    (p : SAParams) (rng : Rng) (hasP hasL : Bool) : SAResult :=
  let s := finalState fuel f x0 p rng hasP hasL
  ⟨s.x_curr, s.f_curr, s.trace, s.progressCalls, s.logCalls⟩

/-- The `param_kwargs` dictionary handed to `run_multiple_runs`: every
tuning key is optional (a missing key falls back to the engine's default
when the remaining dictionary is splatted into `simulated_annealing`). -/
structure ParamKwargs where
  T0 : Option ℝ := none
  Tmin : Option ℝ := none
  alpha : Option ℝ := none
  attempts_per_T : Option Nat := none
  step_scale : Option ℝ := none
  max_iter : Option Int := none
  progress_interval : Option Int := none
  log_interval : Option Int := none

/-- The per-run summary dictionary built by the orchestrator
(source line 168). -/
structure RunResult where
  run : Nat
  x : Vec3
  f : ℝ
  trace : List TraceEntry

/-- The messages the orchestrator sends to the caller's log callback: the
run-prefixed periodic engine message (source lines 143–145, wrapping the
engine's `log_callback` string) and the per-run completion message
(source line 171). -/
inductive LogMsg where
  | iterMsg (run : Nat) (iter : Nat) (temp : ℝ) (fval : ℝ)
  | runDone (run : Nat) (fval : ℝ)

/-- How a multi-run session can abort: an unswallowed exception from a
notification sink, or Python's `ValueError` from `min([])` when there are
zero runs. -/
inductive SessionErr where
  | sinkExn
  | emptyMin

/-- Python's `min(all_results, key=lambda r: float(r["f"]))`: fold from the
first element, replacing the current best only on a strictly smaller key,
so ties keep the first-encountered run. -/
noncomputable def pyMinRec : RunResult → List RunResult → RunResult
  | b, [] => b
  | b, r :: t => pyMinRec (if r.f < b.f then r else b) t

/-- The engine parameter record the orchestrator passes: the splatted
remainder of `param_kwargs` (engine defaults for missing keys) together
with the explicitly supplied `progress_interval`/`log_interval`
(source lines 158–167). -/
def engineParamsOf (kw : ParamKwargs) (localPI localLI : Int) : SAParams :=
  { T0 := kw.T0.getD 100.0
    Tmin := kw.Tmin.getD 1e-4
    alpha := kw.alpha.getD 0.95
    attempts_per_T := kw.attempts_per_T.getD 200
    step_scale := kw.step_scale.getD 0.5
    max_iter := kw.max_iter.getD 20000
    log_interval := localLI
    progress_interval := some localPI }

/-- The body of the orchestrator's `for run in range(1, n_runs+1)` loop
(source lines 129–171), over an explicit list of run indices.  Per run:
invoke the engine on the run's initial point and derived random source;
translate each recorded local progress invocation into the global one
(`(run-1)*local_max + iteration`, `total_estimated`) if a progress sink is
configured (source lines 134–141 — the sink's own exceptions are swallowed
there, so only its call arguments matter); feed every periodic log message
through the caller's log sink with the outcome *discarded* (those calls
happen inside the engine's `try/except: pass`, source lines 94–98); then
invoke the log sink with the per-run completion message — this call
(source lines 170–171) is *not* wrapped, so an error outcome aborts the
whole session. -/
noncomputable def doRuns (fuel : Nat) (initOf : Nat → Vec3) (rngOf : Nat → Rng)
    (p : SAParams) (total : Int) (progressPresent : Bool)
    (logSink : Option (LogMsg → Except Unit Unit)) :
    List Nat →
      List (Int × Int) × List (Except Unit Unit) × Except SessionErr (List RunResult)
  | [] => ([], [], Except.ok [])
  | r :: rest =>
    let res := simulated_annealing fuel f_variant1 (initOf r) p (rngOf r) true true
    let gEv :=
      if progressPresent then
        res.progressCalls.map
          (fun e => (((r : Int) - 1) * (e.2 : Int) + (e.1 : Int), total))
      else []
    let sw :=
      match logSink with
      | none => []
      | some ls => res.logCalls.map (fun e => ls (LogMsg.iterMsg r e.1 e.2.1 e.2.2))
    let doneRes : Except Unit Unit :=
      match logSink with
      | none => Except.ok ()
      | some ls => ls (LogMsg.runDone r res.f)
    match doneRes with
    | Except.error _ => (gEv, sw, Except.error SessionErr.sinkExn)
    | Except.ok _ =>
      let out := doRuns fuel initOf rngOf p total progressPresent logSink rest
      (gEv ++ out.1, sw ++ out.2.1,
        out.2.2.map (fun l => ⟨r, res.x, res.f, res.trace⟩ :: l))

/-- The output of one orchestrator call.  `kwargsAfter` is the caller's
`param_kwargs` dictionary as it stands after the call (the source mutates
it in place with `pop` before the first run, so it is defined even when the
session later aborts).  `progressCalls` records every invocation of the
caller's progress sink (these side effects also precede any abort).
`swallowed` records the discarded outcomes of the periodic log-sink calls.
`outcome` is the pair `(all_results, best)` or the propagated error. -/
structure MultiOut where
  kwargsAfter : ParamKwargs
  progressCalls : List (Int × Int)
  totalEstimated : Int
  swallowed : List (Except Unit Unit)
  outcome : Except SessionErr (List RunResult × RunResult)

/-- `run_multiple_runs` (source lines 108–174).  The uniform sampling of
the initial points from `init_bounds` via the master generator and the
seed-derived per-run generators are abstracted as the oracles `initOf` and
`rngOf` (run index ↦ initial point / random source); no claim depends on
the distribution of those draws.  The function reads
`per_run_max = param_kwargs.get("max_iter", 20000)`, pops the two interval
keys out of the dictionary, derives defaults for missing intervals, runs
the engine once per run index 1..n, and selects the best by `min` on the
final score. -/
noncomputable def run_multiple_runs (fuel : Nat) (n_runs : Nat)
    (initOf : Nat → Vec3) (rngOf : Nat → Rng) (kw : ParamKwargs)
    (progressPresent : Bool) (logSink : Option (LogMsg → Except Unit Unit)) :
    MultiOut :=
  let per_run_max : Int := kw.max_iter.getD 20000
  let total : Int := (n_runs : Int) * per_run_max
  let piPopped := kw.progress_interval
  let liPopped := kw.log_interval
  let kwAfter : ParamKwargs := { kw with progress_interval := none, log_interval := none }
  let localPI : Int := piPopped.getD (max 1 (Int.fdiv per_run_max 1000))
  let localLI : Int := liPopped.getD (max 1 (Int.fdiv per_run_max 200))
  let p := engineParamsOf kwAfter localPI localLI
  let out := doRuns fuel initOf rngOf p total progressPresent logSink
    (List.range' 1 n_runs)
  let outcome : Except SessionErr (List RunResult × RunResult) :=
    match out.2.2 with
    | Except.error e => Except.error e
    | Except.ok [] => Except.error SessionErr.emptyMin
    | Except.ok (h :: t) => Except.ok (h :: t, pyMinRec h t)
  ⟨kwAfter, out.1, total, out.2.1, outcome⟩

/-- The candidate point proposed by one attempt: the current point plus the
scaled Gaussian draw (source lines 68–69). -/
def candOf (c : EngCtx) (s : EngState) : Vec3 :=
  Vec3.add s.x_curr (Vec3.smul c.step_scale (s.rng.normalStream s.rng.counter))

theorem attempt_iter (c : EngCtx) (s : EngState) :
    (attempt c s).iter_count = s.iter_count + 1 := rfl

theorem attempt_T (c : EngCtx) (s : EngState) : (attempt c s).T = s.T := rfl

theorem attempt_trace (c : EngCtx) (s : EngState) :
    (attempt c s).trace =
      s.trace ++ [⟨s.iter_count, s.T, (attempt c s).x_curr, (attempt c s).f_curr,
        c.f (candOf c s) - s.f_curr⟩] := rfl

theorem attempt_dichotomy (c : EngCtx) (s : EngState) :
    ((attempt c s).x_curr = s.x_curr ∧ (attempt c s).f_curr = s.f_curr) ∨
      ((attempt c s).x_curr = candOf c s ∧ (attempt c s).f_curr = c.f (candOf c s)) := by
  simp only [attempt, candOf]
  split_ifs <;> simp

theorem attempt_pcalls (c : EngCtx) (s : EngState) :
    (attempt c s).progressCalls =
      s.progressCalls ++
        (if c.hasP = true ∧ ((s.iter_count + 1) % c.effPI = 0 ∨ s.iter_count + 1 = 1 ∨
            c.effMax ≤ s.iter_count + 1) then
          [(s.iter_count + 1, c.effMax)]
        else []) := by
  simp only [attempt]
  split_ifs <;> simp

/-- The engine-loop invariant tying together the consistency of the current
score, the trace, the iteration counter, and the recorded progress
invocations. -/
structure EngInv (c : EngCtx) (s : EngState) : Prop where
  fx : s.f_curr = c.f s.x_curr
  trace_fx : ∀ e ∈ s.trace, e.fval = c.f e.x
  len : s.trace.length = s.iter_count
  iter_le : s.iter_count ≤ c.effMax
  calls_spec : ∀ pc ∈ s.progressCalls,
    pc.2 = c.effMax ∧ 1 ≤ pc.1 ∧ pc.1 ≤ s.iter_count ∧
      (pc.1 % c.effPI = 0 ∨ pc.1 = 1 ∨ c.effMax ≤ pc.1)
  first_call : c.hasP = true → 1 ≤ s.iter_count →
    ((1 : Nat), c.effMax) ∈ s.progressCalls
  last_call : c.hasP = true → s.iter_count = c.effMax →
    s.progressCalls.getLast? = some (c.effMax, c.effMax)
  calls_sorted : List.Pairwise (fun a b : Nat × Nat => a.1 < b.1) s.progressCalls

theorem attempt_inv {c : EngCtx} {s : EngState} (h : EngInv c s)
    (hlt : s.iter_count < c.effMax) : EngInv c (attempt c s) := by
  have hfx : (attempt c s).f_curr = c.f (attempt c s).x_curr := by
    rcases attempt_dichotomy c s with ⟨hx, hf⟩ | ⟨hx, hf⟩
    · rw [hx, hf, h.fx]
    · rw [hx, hf]
  refine ⟨hfx, ?_, ?_, ?_, ?_, ?_, ?_, ?_⟩
  · intro e he
    rw [attempt_trace] at he
    rcases List.mem_append.mp he with h1 | h1
    · exact h.trace_fx e h1
    · rcases List.mem_singleton.mp h1 with rfl
      exact hfx
  · rw [attempt_trace, attempt_iter, List.length_append, h.len]
    rfl
  · rw [attempt_iter]; omega
  · intro pc hpc
    rw [attempt_pcalls] at hpc
    rcases List.mem_append.mp hpc with h1 | h1
    · obtain ⟨h2, h3, h4, h5⟩ := h.calls_spec pc h1
      exact ⟨h2, h3, by rw [attempt_iter]; omega, h5⟩
    · split_ifs at h1 with hcond
      · rcases List.mem_singleton.mp h1 with rfl
        exact ⟨rfl, by omega, by rw [attempt_iter], hcond.2⟩
      · simp at h1
  · intro hP _
    rw [attempt_pcalls]
    by_cases h0 : 1 ≤ s.iter_count
    · exact List.mem_append_left _ (h.first_call hP h0)
    · have hz : s.iter_count = 0 := by omega
      apply List.mem_append_right
      rw [if_pos ⟨hP, Or.inr (Or.inl (by rw [hz]))⟩]
      simp [hz]
  · intro hP hM
    rw [attempt_iter] at hM
    rw [attempt_pcalls, if_pos ⟨hP, Or.inr (Or.inr (by omega))⟩]
    rw [hM, List.getLast?_concat]
  · rw [attempt_pcalls]
    apply List.pairwise_append.mpr
    refine ⟨h.calls_sorted, ?_, ?_⟩
    · split_ifs <;> simp
    · intro a ha b hb
      have h4 := (h.calls_spec a ha).2.2.1
      split_ifs at hb with hcond
      · rcases List.mem_singleton.mp hb with rfl
        simpa using Nat.lt_succ_of_le h4
      · simp at hb

theorem sweep_inv {c : EngCtx} {s : EngState} (n : Nat) (h : EngInv c s)
    (hlt : s.iter_count < c.effMax) : EngInv c (sweep c n s) := by
  induction n generalizing s with
  | zero => exact h
  | succ n ih =>
    rw [sweep]
    split_ifs with hbr
    · exact attempt_inv h hlt
    · exact ih (attempt_inv h hlt) (by omega)

theorem engInv_setT {c : EngCtx} {s : EngState} (h : EngInv c s) (t : ℝ) :
    EngInv c { s with T := t } :=
  ⟨h.fx, h.trace_fx, h.len, h.iter_le, h.calls_spec, h.first_call, h.last_call,
    h.calls_sorted⟩

theorem saLoop_inv {c : EngCtx} {s : EngState} (fuel : Nat) (h : EngInv c s) :
    EngInv c (saLoop c fuel s) := by
  induction fuel generalizing s with
  | zero => exact h
  | succ fuel ih =>
    rw [saLoop]
    split_ifs with hcond
    · exact ih (engInv_setT (sweep_inv _ h hcond.2) _)
    · exact h

theorem effMaxIter_pos (p : SAParams) : 0 < effMaxIter p := by
  unfold effMaxIter
  split_ifs with h
  · norm_num
  · omega

theorem initState_inv {c : EngCtx} (x0 : Vec3) (T0 : ℝ) (rng : Rng)
    (hM : 0 < c.effMax) : EngInv c (initState c.f x0 T0 rng) := by
  refine ⟨rfl, ?_, rfl, ?_, ?_, ?_, ?_, ?_⟩ <;> simp [initState]
  · intro h
    omega

theorem finalState_inv (fuel : Nat) (f : Vec3 → ℝ) (x0 : Vec3) (p : SAParams)
    (rng : Rng) (hasP hasL : Bool) :
    EngInv (mkCtx f p hasP hasL) (finalState fuel f x0 p rng hasP hasL) :=
  saLoop_inv fuel (initState_inv x0 p.T0 rng (effMaxIter_pos p))

theorem sweep_iter_mono (c : EngCtx) (n : Nat) (s : EngState) :
    s.iter_count ≤ (sweep c n s).iter_count := by
  induction n generalizing s with
  | zero => exact Nat.le_refl _
  | succ n ih =>
    rw [sweep]
    split_ifs with hbr
    · rw [attempt_iter]; omega
    · have := ih (attempt c s)
      rw [attempt_iter] at this
      omega

theorem saLoop_iter_mono (c : EngCtx) (fuel : Nat) (s : EngState) :
    s.iter_count ≤ (saLoop c fuel s).iter_count := by
  induction fuel generalizing s with
  | zero => exact Nat.le_refl _
  | succ fuel ih =>
    rw [saLoop]
    split_ifs with hcond
    · have h1 := sweep_iter_mono c c.attempts_per_T s
      have h2 := ih { sweep c c.attempts_per_T s with T := (sweep c c.attempts_per_T s).T * c.alpha }
      exact Nat.le_trans h1 h2
    · exact Nat.le_refl _

/-- A convenient all-zero state vector for concrete runs. -/
def v0 : Vec3 := ⟨0, 0, 0⟩

/-- A concrete random oracle: every standard-normal draw is the zero vector
and every uniform draw is 0, so every proposed step is the null step. -/
def constRng : Rng := ⟨0, fun _ => ⟨0, 0, 0⟩, fun _ => 0⟩

/-- The constant-zero objective of the spec's termination scenario
(delta is always 0, so every candidate is accepted). -/
def f0 : Vec3 → ℝ := fun _ => 0

/-- The scenario parameter set `T0=10, Tmin=1, alpha=0.5, attempts_per_T=1,
max_iter=100` (with the engine's default notification intervals). -/
def pScenario : SAParams :=
  { T0 := 10, Tmin := 1, alpha := 0.5, attempts_per_T := 1, step_scale := 0.5,
    max_iter := 100, log_interval := 500, progress_interval := some 100 }

theorem sweep_one_le (c : EngCtx) (n : Nat) (s : EngState) (hn : 1 ≤ n) :
    s.iter_count + 1 ≤ (sweep c n s).iter_count := by
  cases n with
  | zero => omega
  | succ n =>
    rw [sweep]
    split_ifs with hbr
    · rw [attempt_iter]
    · have := sweep_iter_mono c n (attempt c s)
      rw [attempt_iter] at this
      omega

/-- C1.  Metropolis acceptance rule of the annealing engine: in every
attempted step, writing `x_new` for the candidate and
`df = f(x_new) − f_curr`, the post-step current point and score are the
candidate's when `df ≤ 0` (unconditional acceptance); when `df > 0` they
are the candidate's exactly when the one uniform draw consumed for this
candidate is below `exp(−df / T)`, and are unchanged otherwise.  The
random counter advances by one draw for the proposal plus exactly one more
draw when and only when the Metropolis test runs, and the temperature is
untouched by an attempt. -/
theorem C1_metropolis_acceptance (c : EngCtx) (s : EngState) :
    ((attempt c s).x_curr, (attempt c s).f_curr) =
      (if c.f (candOf c s) - s.f_curr ≤ 0 then (candOf c s, c.f (candOf c s))
       else if s.rng.uniformStream (s.rng.counter + 1) <
           Real.exp (-(c.f (candOf c s) - s.f_curr) / s.T) then
         (candOf c s, c.f (candOf c s))
       else (s.x_curr, s.f_curr)) ∧
    (attempt c s).rng.counter =
      (if c.f (candOf c s) - s.f_curr ≤ 0 then s.rng.counter + 1
       else s.rng.counter + 2) ∧
    (attempt c s).T = s.T := by
  refine ⟨?_, ?_, rfl⟩ <;>
  · simp only [attempt, candOf]
    split_ifs <;> simp_all

/-- C2.  The trace has exactly one entry per attempted iteration (its
length always equals the final iteration count); for a positive configured
cap the trace length never exceeds `max_iter`; and on the scenario
`T0=10, Tmin=1, alpha=0.5, max_iter=100` with a constant objective the run
attempts exactly 4 iterations at temperature levels 10, 5, 2.5, 1.25 when
`attempts_per_T=1`, and exactly 8 (two per level) when `attempts_per_T=2`,
the temperature being multiplied by `alpha` only after each full sweep. -/
theorem C2_trace_length_schedule (fuel : Nat) (f : Vec3 → ℝ) (x0 : Vec3)
    (p : SAParams) (rng : Rng) (hasP hasL : Bool) :
    (finalState fuel f x0 p rng hasP hasL).trace.length =
      (finalState fuel f x0 p rng hasP hasL).iter_count ∧
    (0 < p.max_iter →
      (simulated_annealing fuel f x0 p rng hasP hasL).trace.length ≤ p.max_iter.toNat) ∧
    (simulated_annealing 5 f0 v0 pScenario constRng true true).trace.map
      TraceEntry.temp = [10, 5, 2.5, 1.25] ∧
    (simulated_annealing 5 f0 v0 { pScenario with attempts_per_T := 2 }
      constRng true true).trace.map TraceEntry.temp =
      [10, 10, 5, 5, 2.5, 2.5, 1.25, 1.25] := by
  have h := finalState_inv fuel f x0 p rng hasP hasL
  refine ⟨h.len, ?_, ?_, ?_⟩
  · intro hpos
    have h1 : effMaxIter p = p.max_iter.toNat := by
      unfold effMaxIter
      rw [if_neg (by omega)]
    have h2 := h.iter_le
    have h3 := h.len
    simp only [simulated_annealing]
    rw [h3]
    rw [← h1]
    exact h2
  · norm_num [simulated_annealing, finalState, saLoop, sweep, attempt, initState,
      mkCtx, effMaxIter, effProgressInterval, pScenario, f0, v0, constRng,
      Vec3.add, Vec3.smul, Int.toNat]
  · norm_num [simulated_annealing, finalState, saLoop, sweep, attempt, initState,
      mkCtx, effMaxIter, effProgressInterval, pScenario, f0, v0, constRng,
      Vec3.add, Vec3.smul, Int.toNat]

/-- Witness for C2 at the scenario parameters: the cap hypothesis holds at
`max_iter = 100` and the returned trace length is within the cap. -/
theorem C2_trace_length_schedule_witness :
    (simulated_annealing 5 f0 v0 pScenario constRng true true).trace.length ≤
      (100 : Int).toNat :=
  (C2_trace_length_schedule 5 f0 v0 pScenario constRng true true).2.1 (by decide)

/-- C3.  Trace consistency: with a pure objective `f`, every trace entry's
stored objective value is `f` of that entry's stored state vector, and the
returned final score is `f` of the returned final point. -/
theorem C3_trace_consistency (fuel : Nat) (f : Vec3 → ℝ) (x0 : Vec3)
    (p : SAParams) (rng : Rng) (hasP hasL : Bool) :
    (∀ e ∈ (simulated_annealing fuel f x0 p rng hasP hasL).trace, e.fval = f e.x) ∧
    (simulated_annealing fuel f x0 p rng hasP hasL).f =
      f (simulated_annealing fuel f x0 p rng hasP hasL).x := by
  have h := finalState_inv fuel f x0 p rng hasP hasL
  exact ⟨h.trace_fx, h.fx⟩

/-- Witness for C3: the first trace entry of the concrete scenario run
satisfies the consistency invariant. -/
theorem C3_trace_consistency_witness :
    (⟨0, 10, v0, 0, 0⟩ : TraceEntry).fval = f0 ((⟨0, 10, v0, 0, 0⟩ : TraceEntry).x) :=
  (C3_trace_consistency 5 f0 v0 pScenario constRng true true).1 _
    (by norm_num [simulated_annealing, finalState, saLoop, sweep, attempt, initState,
      mkCtx, effMaxIter, effProgressInterval, pScenario, f0, v0, constRng,
      Vec3.add, Vec3.smul, Int.toNat])

/-- C5.  Objective totality: the quartic expression inside the logarithm of
`f_variant1` is at least 4 for every real input, hence strictly positive,
so in exact real arithmetic the logarithm is taken of a positive argument
(`exp ∘ f_variant1` recovers it) and no numeric-domain error is
reachable. -/
theorem C5_objective_totality (x : Vec3) :
    4 ≤ innerQuartic x ∧ 0 < innerQuartic x ∧
      Real.exp (f_variant1 x) = innerQuartic x := by
  have h1 : (0 : ℝ) ≤ (x.x1 - 0.9) ^ 4 := by positivity
  have h2 : (0 : ℝ) ≤ (x.x2 - 0.6) ^ 4 := by positivity
  have h3 : (0 : ℝ) ≤ (x.x3 - 0.9) ^ 4 := by positivity
  have h4 : 4 ≤ innerQuartic x := by unfold innerQuartic; nlinarith
  have h5 : 0 < innerQuartic x := by linarith
  exact ⟨h4, h5, by rw [f_variant1, Real.exp_log h5]⟩

/-- The scenario parameters with the iteration cap lowered to 3, so that
the run terminates by hitting the cap rather than by cooling. -/
def pCap3 : SAParams := { pScenario with max_iter := 3 }

/-- C6, counterexample.  On the scenario run that terminates because the
temperature fell to `Tmin` (final temperature 0.625 ≤ 1 after 4 attempted
iterations, well below the cap of 100), the progress sink is invoked only
at iteration 1: no invocation carries the final attempted iteration 4, so
the sink is *not* always invoked at the final attempted iteration. -/
theorem C6_final_notification_cex :
    (simulated_annealing 5 f0 v0 pScenario constRng true true).trace.length = 4 ∧
    (finalState 5 f0 v0 pScenario constRng true true).T ≤ 1 ∧
    (finalState 5 f0 v0 pScenario constRng true true).iter_count = 4 ∧
    (simulated_annealing 5 f0 v0 pScenario constRng true true).progressCalls =
      [(1, 100)] ∧
    ((4 : Nat), (100 : Nat)) ∉
      (simulated_annealing 5 f0 v0 pScenario constRng true true).progressCalls := by
  norm_num [simulated_annealing, finalState, saLoop, sweep, attempt, initState,
    mkCtx, effMaxIter, effProgressInterval, pScenario, f0, v0, constRng,
    Vec3.add, Vec3.smul, Int.toNat]

/-- C6, amended.  With a progress sink configured, every recorded progress
invocation carries the effective cap as its total, falls within the
attempted iterations, and happens only at interval multiples, at iteration
1, or at the cap; the sink is always invoked at iteration 1 (as soon as at
least one iteration ran), and it is invoked at the final attempted
iteration whenever the run terminates by reaching the iteration cap — but
(per the counterexample) not necessarily when it terminates because the
temperature fell to `Tmin`. -/
theorem C6_progress_schedule (fuel : Nat) (f : Vec3 → ℝ) (x0 : Vec3)
    (p : SAParams) (rng : Rng) (hasL : Bool) :
    (∀ pc ∈ (simulated_annealing fuel f x0 p rng true hasL).progressCalls,
        pc.2 = effMaxIter p ∧ 1 ≤ pc.1 ∧
        pc.1 ≤ (finalState fuel f x0 p rng true hasL).iter_count ∧
        (pc.1 % effProgressInterval p = 0 ∨ pc.1 = 1 ∨ effMaxIter p ≤ pc.1)) ∧
    (1 ≤ (finalState fuel f x0 p rng true hasL).iter_count →
      ((1 : Nat), effMaxIter p) ∈
        (simulated_annealing fuel f x0 p rng true hasL).progressCalls) ∧
    ((finalState fuel f x0 p rng true hasL).iter_count = effMaxIter p →
      (simulated_annealing fuel f x0 p rng true hasL).progressCalls.getLast? =
        some (effMaxIter p, effMaxIter p)) := by
  have h := finalState_inv fuel f x0 p rng true hasL
  exact ⟨h.calls_spec, h.first_call rfl, h.last_call rfl⟩

/-- Witness for C6 on a cap-terminated run (`max_iter = 3`): at least one
iteration ran and the final iteration count equals the cap, so the sink
fires both at iteration 1 and at the final iteration 3. -/
theorem C6_progress_schedule_witness :
    ((1 : Nat), effMaxIter pCap3) ∈
      (simulated_annealing 5 f0 v0 pCap3 constRng true true).progressCalls ∧
    (simulated_annealing 5 f0 v0 pCap3 constRng true true).progressCalls.getLast? =
      some (effMaxIter pCap3, effMaxIter pCap3) :=
  ⟨(C6_progress_schedule 5 f0 v0 pCap3 constRng true).2.1
      (by norm_num [finalState, saLoop, sweep, attempt, initState, mkCtx,
        effMaxIter, effProgressInterval, pCap3, pScenario, f0, v0, constRng,
        Vec3.add, Vec3.smul, Int.toNat]),
    (C6_progress_schedule 5 f0 v0 pCap3 constRng true).2.2
      (by norm_num [finalState, saLoop, sweep, attempt, initState, mkCtx,
        effMaxIter, effProgressInterval, pCap3, pScenario, f0, v0, constRng,
        Vec3.add, Vec3.smul, Int.toNat])⟩

/-- An invalid parameter set: the cooling factor `alpha = 2` lies outside
`(0,1)` (so the temperature *heats up* geometrically); the step scale is
the valid 0.5 and the cap is 3. -/
def pInvalid : SAParams :=
  { T0 := 10, Tmin := 1, alpha := 2, attempts_per_T := 1, step_scale := 0.5,
    max_iter := 3, log_interval := 500, progress_interval := some 100 }

/-- C8, counterexample.  With the invalid cooling factor `alpha = 2 ∉
(0,1)` the engine performs no validation: the run proceeds (the
temperature growing 10, 20, 40) and attempts 3 iterations — 3 trace
entries, hence 3 objective evaluations beyond the initial one — instead of
rejecting the parameters with a validation error before any iteration. -/
theorem C8_no_validation_cex :
    ¬ ((0 : ℝ) < pInvalid.alpha ∧ pInvalid.alpha < 1) ∧
    (simulated_annealing 5 f0 v0 pInvalid constRng true true).trace.length = 3 := by
  norm_num [simulated_annealing, finalState, saLoop, sweep, attempt, initState,
    mkCtx, effMaxIter, effProgressInterval, pInvalid, f0, v0, constRng,
    Vec3.add, Vec3.smul, Int.toNat]

/-- C8, amended.  The engine performs no explicit parameter validation:
whatever the cooling factor, temperature signs or attempt count, it never
raises a validation error — whenever the loop condition holds at entry
(`Tmin < T0`), at least one attempt per level is configured and the step
scale is non-negative (so that the proposal draw itself cannot fail), it
runs at least one iteration; a non-positive `max_iter` is not rejected
either but silently replaced by `10^9` (and a missing or non-positive
progress interval by a derived default, see `effProgressInterval`).  A
*negative* step scale does abort the run, but through NumPy's `ValueError`
at the first proposal draw — after the initial objective evaluation, not
as an up-front validation — so it is outside this statement's scope. -/
theorem C8_no_validation (fuel : Nat) (f : Vec3 → ℝ) (x0 : Vec3) (p : SAParams)
    (rng : Rng) (hasP hasL : Bool) :
    (0 ≤ p.step_scale → p.Tmin < p.T0 → 1 ≤ p.attempts_per_T → 1 ≤ fuel →
      1 ≤ (finalState fuel f x0 p rng hasP hasL).iter_count) ∧
    (p.max_iter ≤ 0 → effMaxIter p = 10 ^ 9) := by
  constructor
  · intro hs hT ha hf
    obtain ⟨k, rfl⟩ : ∃ k, fuel = k + 1 := ⟨fuel - 1, by omega⟩
    have key : ∀ (c : EngCtx) (s0 : EngState), c.Tmin < s0.T →
        s0.iter_count < c.effMax → 1 ≤ c.attempts_per_T → s0.iter_count = 0 →
        1 ≤ (saLoop c (k + 1) s0).iter_count := by
      intro c s0 h1 h2 h3 h4
      rw [saLoop, if_pos ⟨h1, h2⟩]
      show 1 ≤ (saLoop c k
        { sweep c c.attempts_per_T s0 with
          T := (sweep c c.attempts_per_T s0).T * c.alpha }).iter_count
      have h5 := sweep_one_le c c.attempts_per_T s0 h3
      have h6 := saLoop_iter_mono c k
        { sweep c c.attempts_per_T s0 with
          T := (sweep c c.attempts_per_T s0).T * c.alpha }
      have h7 : ({ sweep c c.attempts_per_T s0 with
          T := (sweep c c.attempts_per_T s0).T * c.alpha } : EngState).iter_count =
          (sweep c c.attempts_per_T s0).iter_count := rfl
      omega
    exact key (mkCtx f p hasP hasL) (initState f x0 p.T0 rng) hT
      (effMaxIter_pos p) ha rfl
  · intro hm
    unfold effMaxIter
    rw [if_pos hm]

/-- Witness for C8 at the invalid parameter set: a non-negative step
scale, `Tmin < T0`, one attempt per level and positive fuel hold there, so
the engine really iterates despite `alpha = 2`, and a non-positive cap is
really replaced by `10^9`. -/
theorem C8_no_validation_witness :
    1 ≤ (finalState 5 f0 v0 pInvalid constRng true true).iter_count ∧
    effMaxIter { pInvalid with max_iter := -7 } = 10 ^ 9 :=
  ⟨(C8_no_validation 5 f0 v0 pInvalid constRng true true).1
      (by norm_num [pInvalid]) (by norm_num [pInvalid]) (by norm_num [pInvalid])
      (by norm_num),
    (C8_no_validation 5 f0 v0 { pInvalid with max_iter := -7 } constRng true true).2
      (by decide)⟩

/-- `m` is the argmin of the final scores over `l`, with ties broken in
favour of the earliest element: `m` occurs at an index every strictly
earlier element of which has a strictly larger score. -/
def isFirstMin (l : List RunResult) (m : RunResult) : Prop :=
  (∀ r ∈ l, m.f ≤ r.f) ∧
  ∃ i : Nat, l[i]? = some m ∧
    ∀ j : Nat, j < i → ∀ x : RunResult, l[j]? = some x → m.f < x.f

theorem pyMinRec_isFirstMin (b : RunResult) (t : List RunResult) :
    isFirstMin (b :: t) (pyMinRec b t) := by
  induction t generalizing b with
  | nil =>
    refine ⟨?_, 0, rfl, ?_⟩
    · intro r hr
      rcases List.mem_singleton.mp hr with rfl
      exact le_refl _
    · intro j hj
      omega
  | cons r t ih =>
    rw [pyMinRec]
    by_cases hrb : r.f < b.f
    · rw [if_pos hrb]
      obtain ⟨hmin, i, hi, hpre⟩ := ih r
      have hmr : (pyMinRec r t).f ≤ r.f := hmin r (List.mem_cons_self r t)
      refine ⟨?_, i + 1, ?_, ?_⟩
      · intro x hx
        rcases List.mem_cons.mp hx with rfl | hx'
        · linarith
        · exact hmin x hx'
      · simpa using hi
      · intro j hj x hx
        cases j with
        | zero =>
          simp only [List.getElem?_cons_zero, Option.some.injEq] at hx
          subst hx
          linarith
        | succ j' =>
          apply hpre j' (by omega) x
          simpa using hx
    · rw [if_neg hrb]
      have hbr : b.f ≤ r.f := not_lt.mp hrb
      obtain ⟨hmin, i, hi, hpre⟩ := ih b
      have hmins : ∀ x ∈ b :: r :: t, (pyMinRec b t).f ≤ x.f := by
        intro x hx
        rcases List.mem_cons.mp hx with hxe | hx'
        · rw [hxe]
          exact hmin b (List.mem_cons_self b t)
        · rcases List.mem_cons.mp hx' with hxe | hx''
          · rw [hxe]
            exact le_trans (hmin b (List.mem_cons_self b t)) hbr
          · exact hmin x (List.mem_cons_of_mem b hx'')
      cases i with
      | zero =>
        simp only [List.getElem?_cons_zero, Option.some.injEq] at hi
        refine ⟨hmins, 0, by simp [← hi], ?_⟩
        intro j hj
        omega
      | succ i' =>
        have hlt : (pyMinRec b t).f < b.f :=
          hpre 0 (Nat.succ_pos i') b (by simp)
        refine ⟨hmins, i' + 2, by simpa using hi, ?_⟩
        intro j hj x hx
        cases j with
        | zero =>
          simp only [List.getElem?_cons_zero, Option.some.injEq] at hx
          rw [← hx]
          exact hlt
        | succ j' =>
          cases j' with
          | zero =>
            simp only [List.getElem?_cons_succ, List.getElem?_cons_zero,
              Option.some.injEq] at hx
            rw [← hx]
            linarith
          | succ j'' =>
            apply hpre (j'' + 1) (by omega) x
            simpa using hx

/-- The per-run summary the orchestrator appends for run `r`
(source line 168), as a function of the run index. -/
noncomputable def summaryOf (fuel : Nat) (initOf : Nat → Vec3) (rngOf : Nat → Rng)
    (p : SAParams) (r : Nat) : RunResult :=
  ⟨r, (simulated_annealing fuel f_variant1 (initOf r) p (rngOf r) true true).x,
    (simulated_annealing fuel f_variant1 (initOf r) p (rngOf r) true true).f,
    (simulated_annealing fuel f_variant1 (initOf r) p (rngOf r) true true).trace⟩

theorem doRuns_none_results (fuel : Nat) (initOf : Nat → Vec3) (rngOf : Nat → Rng)
    (p : SAParams) (total : Int) (pp : Bool) (rs : List Nat) :
    (doRuns fuel initOf rngOf p total pp none rs).2.2 =
      Except.ok (rs.map (summaryOf fuel initOf rngOf p)) := by
  induction rs with
  | nil => rfl
  | cons r rest ih =>
    rw [doRuns]
    simp only [List.map_cons]
    rw [ih]
    rfl

/-- C4.  Best-run selection: for every session of `N ≥ 1` runs that
completes (here with no log sink, so nothing can abort it), the
orchestrator returns `Except.ok` with the full ordered result list of
length `N`, and the reported best is the first-encountered argmin of the
final scores; for `N = 1` the result list is exactly the singleton of the
best, i.e. the best equals that run's result. -/
theorem C4_best_selection (fuel n_runs : Nat) (initOf : Nat → Vec3)
    (rngOf : Nat → Rng) (kw : ParamKwargs) (pp : Bool) (hn : 1 ≤ n_runs) :
    ∃ l b, (run_multiple_runs fuel n_runs initOf rngOf kw pp none).outcome =
        Except.ok (l, b) ∧ l.length = n_runs ∧ isFirstMin l b ∧
        (n_runs = 1 → l = [b]) := by
  obtain ⟨m, rfl⟩ : ∃ m, n_runs = m + 1 := ⟨n_runs - 1, by omega⟩
  simp only [run_multiple_runs, doRuns_none_results, List.range'_succ, List.map_cons]
  refine ⟨_, _, rfl, ?_, pyMinRec_isFirstMin _ _, ?_⟩
  · simp [List.length_map, List.length_range']
  · intro h1
    have hm : m = 0 := by omega
    subst hm
    simp [List.range', pyMinRec]

/-- The scenario parameters as a `param_kwargs` dictionary for the
orchestrator (same values as `pScenario`, all keys present). -/
def kwScenario : ParamKwargs :=
  { T0 := some 10, Tmin := some 1, alpha := some 0.5, attempts_per_T := some 1,
    step_scale := some 0.5, max_iter := some 100, progress_interval := some 100,
    log_interval := some 500 }

/-- Witness for C4: a concrete single-run session completes and satisfies
the best-selection property. -/
theorem C4_best_selection_witness :
    ∃ l b, (run_multiple_runs 5 1 (fun _ => v0) (fun _ => constRng) kwScenario
        true none).outcome = Except.ok (l, b) ∧ l.length = 1 ∧ isFirstMin l b ∧
        (1 = 1 → l = [b]) :=
  C4_best_selection 5 1 (fun _ => v0) (fun _ => constRng) kwScenario true
    (by decide)

/-- A log sink that never raises. -/
def okSink : LogMsg → Except Unit Unit := fun _ => Except.ok ()

/-- A log sink that raises exactly on the orchestrator's per-run completion
message. -/
def raiseOnDone : LogMsg → Except Unit Unit := fun m =>
  match m with
  | LogMsg.runDone _ _ => Except.error ()
  | _ => Except.ok ()

/-- A log sink that raises exactly on the periodic (engine-side, wrapped)
log messages. -/
def raiseOnIter : LogMsg → Except Unit Unit := fun m =>
  match m with
  | LogMsg.iterMsg _ _ _ _ => Except.error ()
  | _ => Except.ok ()

theorem doRuns_sink_congr (fuel : Nat) (initOf : Nat → Vec3) (rngOf : Nat → Rng)
    (p : SAParams) (total : Int) (pp : Bool)
    (ls₁ ls₂ : LogMsg → Except Unit Unit)
    (h : ∀ r : Nat, ∀ v : ℝ, ls₁ (LogMsg.runDone r v) = ls₂ (LogMsg.runDone r v))
    (rs : List Nat) :
    (doRuns fuel initOf rngOf p total pp (some ls₁) rs).1 =
      (doRuns fuel initOf rngOf p total pp (some ls₂) rs).1 ∧
    (doRuns fuel initOf rngOf p total pp (some ls₁) rs).2.2 =
      (doRuns fuel initOf rngOf p total pp (some ls₂) rs).2.2 := by
  induction rs with
  | nil => exact ⟨rfl, rfl⟩
  | cons r rest ih =>
    rw [doRuns, doRuns]
    simp only [h r]
    cases hD : ls₂ (LogMsg.runDone r
        (simulated_annealing fuel f_variant1 (initOf r) p (rngOf r) true true).f) with
    | error e => exact ⟨rfl, rfl⟩
    | ok u =>
      simp only []
      exact ⟨by rw [ih.1], by rw [ih.2]⟩

/-- C7, amended.  Exceptions raised by notification sinks are swallowed at
every call site that the source wraps in `try/except: pass` — the engine's
progress and periodic-log calls and the orchestrator's progress
translation — so the session outcome, the reported progress, and the final
state of the parameter dictionary depend on the log sink only through its
behaviour on the per-run completion message: any two sinks agreeing there
yield identical sessions.  The completion-message call itself (source
line 171) is *not* wrapped, and an exception there propagates (see the
counterexample). -/
theorem C7_sink_swallowing (ls₁ ls₂ : LogMsg → Except Unit Unit)
    (h : ∀ r : Nat, ∀ v : ℝ, ls₁ (LogMsg.runDone r v) = ls₂ (LogMsg.runDone r v))
    (fuel n_runs : Nat) (initOf : Nat → Vec3) (rngOf : Nat → Rng)
    (kw : ParamKwargs) (pp : Bool) :
    (run_multiple_runs fuel n_runs initOf rngOf kw pp (some ls₁)).outcome =
      (run_multiple_runs fuel n_runs initOf rngOf kw pp (some ls₂)).outcome ∧
    (run_multiple_runs fuel n_runs initOf rngOf kw pp (some ls₁)).progressCalls =
      (run_multiple_runs fuel n_runs initOf rngOf kw pp (some ls₂)).progressCalls ∧
    (run_multiple_runs fuel n_runs initOf rngOf kw pp (some ls₁)).kwargsAfter =
      (run_multiple_runs fuel n_runs initOf rngOf kw pp (some ls₂)).kwargsAfter := by
  have hc := doRuns_sink_congr fuel initOf rngOf
    (engineParamsOf { kw with progress_interval := none, log_interval := none }
      (kw.progress_interval.getD (max 1 (Int.fdiv (kw.max_iter.getD 20000) 1000)))
      (kw.log_interval.getD (max 1 (Int.fdiv (kw.max_iter.getD 20000) 200))))
    ((n_runs : Int) * kw.max_iter.getD 20000) pp ls₁ ls₂ h (List.range' 1 n_runs)
  refine ⟨?_, ?_, rfl⟩
  · simp only [run_multiple_runs]
    rw [hc.2]
  · simp only [run_multiple_runs]
    rw [hc.1]

/-- Witness for C7: a sink raising on every periodic log message and a sink
never raising agree on completion messages, so their sessions coincide. -/
theorem C7_sink_swallowing_witness :
    (run_multiple_runs 5 1 (fun _ => v0) (fun _ => constRng) kwScenario true
        (some raiseOnIter)).outcome =
      (run_multiple_runs 5 1 (fun _ => v0) (fun _ => constRng) kwScenario true
        (some okSink)).outcome ∧
    (run_multiple_runs 5 1 (fun _ => v0) (fun _ => constRng) kwScenario true
        (some raiseOnIter)).progressCalls =
      (run_multiple_runs 5 1 (fun _ => v0) (fun _ => constRng) kwScenario true
        (some okSink)).progressCalls ∧
    (run_multiple_runs 5 1 (fun _ => v0) (fun _ => constRng) kwScenario true
        (some raiseOnIter)).kwargsAfter =
      (run_multiple_runs 5 1 (fun _ => v0) (fun _ => constRng) kwScenario true
        (some okSink)).kwargsAfter :=
  C7_sink_swallowing raiseOnIter okSink (fun _ _ => rfl) 5 1 (fun _ => v0)
    (fun _ => constRng) kwScenario true

/-- C7, counterexample.  A log sink that raises on the per-run completion
message aborts the whole session (the error propagates out of
`run_multiple_runs`), while the same session with a non-raising sink
completes: sink exceptions are *not* always swallowed. -/
theorem C7_sink_error_cex :
    (run_multiple_runs 5 1 (fun _ => v0) (fun _ => constRng) kwScenario true
      (some raiseOnDone)).outcome = Except.error SessionErr.sinkExn ∧
    (run_multiple_runs 5 1 (fun _ => v0) (fun _ => constRng) kwScenario true
      (some okSink)).outcome ≠ Except.error SessionErr.sinkExn := by
  constructor
  · simp [run_multiple_runs, doRuns, raiseOnDone, List.range'_one]
  · simp [run_multiple_runs, doRuns, okSink, List.range'_one, Except.map]

theorem engine_calls_facts (fuel : Nat) (f : Vec3 → ℝ) (x0 : Vec3) (p : SAParams)
    (rng : Rng) (hasL : Bool) :
    (∀ e ∈ (simulated_annealing fuel f x0 p rng true hasL).progressCalls,
      e.2 = effMaxIter p ∧ 1 ≤ e.1 ∧ e.1 ≤ effMaxIter p) ∧
    List.Pairwise (fun a b : Nat × Nat => a.1 < b.1)
      (simulated_annealing fuel f x0 p rng true hasL).progressCalls := by
  have h := finalState_inv fuel f x0 p rng true hasL
  refine ⟨?_, h.calls_sorted⟩
  intro e he
  obtain ⟨h1, h2, h3, _⟩ := h.calls_spec e he
  exact ⟨h1, h2, le_trans h3 h.iter_le⟩

theorem mapped_block_facts (fuel : Nat) (f : Vec3 → ℝ) (x0 : Vec3) (p : SAParams)
    (rng : Rng) (hasL : Bool) (r : Nat) (total : Int) :
    (∀ e ∈ (simulated_annealing fuel f x0 p rng true hasL).progressCalls.map
        (fun c => (((r : Int) - 1) * (c.2 : Int) + (c.1 : Int), total)),
      e.2 = total ∧ ∃ i : Nat, 1 ≤ i ∧ i ≤ effMaxIter p ∧
        e.1 = ((r : Int) - 1) * (effMaxIter p : Int) + (i : Int)) ∧
    List.Pairwise (fun a b : Int × Int => a.1 < b.1)
      ((simulated_annealing fuel f x0 p rng true hasL).progressCalls.map
        (fun c => (((r : Int) - 1) * (c.2 : Int) + (c.1 : Int), total))) := by
  obtain ⟨hspec, hsorted⟩ := engine_calls_facts fuel f x0 p rng hasL
  constructor
  · intro e he
    obtain ⟨c, hc, hce⟩ := List.mem_map.mp he
    obtain ⟨h1, h2, h3⟩ := hspec c hc
    rw [← hce]
    exact ⟨rfl, c.1, h2, h3, by rw [h1]⟩
  · rw [List.pairwise_map]
    apply List.Pairwise.imp_of_mem ?_ hsorted
    intro a b ha hb hab
    have h1 := (hspec a ha).1
    have h2 := (hspec b hb).1
    rw [h1, h2]
    have hcast : (a.1 : Int) < (b.1 : Int) := by exact_mod_cast hab
    exact add_lt_add_left hcast _

theorem doRuns_cons_events (fuel : Nat) (initOf : Nat → Vec3) (rngOf : Nat → Rng)
    (p : SAParams) (total : Int) (ls : Option (LogMsg → Except Unit Unit))
    (r : Nat) (rest : List Nat) :
    (doRuns fuel initOf rngOf p total true ls (r :: rest)).1 =
      ((simulated_annealing fuel f_variant1 (initOf r) p (rngOf r) true
          true).progressCalls.map
        (fun c => (((r : Int) - 1) * (c.2 : Int) + (c.1 : Int), total))) ++
      (match (match ls with
        | none => Except.ok ()
        | some lsf => lsf (LogMsg.runDone r
            (simulated_annealing fuel f_variant1 (initOf r) p (rngOf r) true
              true).f)) with
      | Except.error _ => ([] : List (Int × Int))
      | Except.ok _ => (doRuns fuel initOf rngOf p total true ls rest).1) := by
  cases ls with
  | none =>
    rw [doRuns]
    simp
  | some lsf =>
    rw [doRuns]
    cases hD : lsf (LogMsg.runDone r
        (simulated_annealing fuel f_variant1 (initOf r) p (rngOf r) true true).f) with
    | error e => simp [hD]
    | ok u => simp [hD]

theorem doRuns_events_spec (fuel : Nat) (initOf : Nat → Vec3) (rngOf : Nat → Rng)
    (p : SAParams) (total : Int) (ls : Option (LogMsg → Except Unit Unit))
    (rs : List Nat) :
    List.Pairwise (· < ·) rs →
    ((∀ e ∈ (doRuns fuel initOf rngOf p total true ls rs).1,
        e.2 = total ∧ ∃ r ∈ rs, ∃ i : Nat, 1 ≤ i ∧ i ≤ effMaxIter p ∧
          e.1 = ((r : Int) - 1) * (effMaxIter p : Int) + (i : Int)) ∧
      List.Pairwise (fun a b : Int × Int => a.1 < b.1)
        (doRuns fuel initOf rngOf p total true ls rs).1) := by
  induction rs with
  | nil =>
    intro _
    constructor
    · intro e he
      simp [doRuns] at he
    · simp [doRuns]
  | cons r rest ih =>
    intro hsort
    obtain ⟨hre, hsort'⟩ := List.pairwise_cons.mp hsort
    have ihh := ih hsort'
    obtain ⟨hblock, hbsort⟩ := mapped_block_facts fuel f_variant1 (initOf r) p
      (rngOf r) true r total
    rw [doRuns_cons_events]
    have hcross : ∀ a ∈ (simulated_annealing fuel f_variant1 (initOf r) p (rngOf r)
          true true).progressCalls.map
        (fun c => (((r : Int) - 1) * (c.2 : Int) + (c.1 : Int), total)),
        ∀ b ∈ (doRuns fuel initOf rngOf p total true ls rest).1, a.1 < b.1 := by
      intro a ha b hb
      obtain ⟨-, i, hi1, hi2, hie⟩ := hblock a ha
      obtain ⟨-, r', hr'mem, i', hi'1, -, hi'e⟩ := (ihh.1 b hb)
      have hrr' : r < r' := hre r' hr'mem
      have hM0 : (0 : Int) ≤ (effMaxIter p : Int) := Int.ofNat_nonneg _
      have hk1 : ((r : Int) - 1) * (effMaxIter p : Int) + (effMaxIter p : Int) =
          (r : Int) * (effMaxIter p : Int) := by ring
      have hk2 : (r : Int) * (effMaxIter p : Int) ≤
          ((r' : Int) - 1) * (effMaxIter p : Int) :=
        mul_le_mul_of_nonneg_right (by omega) hM0
      have hi2' : (i : Int) ≤ (effMaxIter p : Int) := by exact_mod_cast hi2
      have hi'1' : (1 : Int) ≤ (i' : Int) := by exact_mod_cast hi'1
      rw [hie, hi'e]
      linarith
    cases hD : (match ls with
      | none => Except.ok ()
      | some lsf => lsf (LogMsg.runDone r
          (simulated_annealing fuel f_variant1 (initOf r) p (rngOf r) true
            true).f)) with
    | error e =>
      rw [List.append_nil]
      constructor
      · intro e' he'
        obtain ⟨h1, i, hi1, hi2, hie⟩ := hblock e' he'
        exact ⟨h1, r, List.mem_cons_self r rest, i, hi1, hi2, hie⟩
      · exact hbsort
    | ok u =>
      constructor
      · intro e' he'
        rcases List.mem_append.mp he' with h1 | h1
        · obtain ⟨h2, i, hi1, hi2, hie⟩ := hblock e' h1
          exact ⟨h2, r, List.mem_cons_self r rest, i, hi1, hi2, hie⟩
        · obtain ⟨h2, r', hr'mem, i', hi'1, hi'2, hi'e⟩ := ihh.1 e' h1
          exact ⟨h2, r', List.mem_cons_of_mem r hr'mem, i', hi'1, hi'2, hi'e⟩
      · exact List.pairwise_append.mpr ⟨hbsort, ihh.2, hcross⟩

/-- C9, counterexample.  In a single-run session with cap 100 whose only
run terminates after 4 iterations because the temperature fell below
`Tmin`, the caller's progress sink is invoked exactly once, with global
value 1 — the final reported value (1) does *not* equal the reported total
(100). -/
theorem C9_final_total_cex :
    (run_multiple_runs 5 1 (fun _ => v0) (fun _ => constRng) kwScenario true
      none).progressCalls = [(1, 100)] ∧
    (run_multiple_runs 5 1 (fun _ => v0) (fun _ => constRng) kwScenario true
      none).totalEstimated = 100 ∧
    (1 : Int) ≠ (100 : Int) := by
  refine ⟨?_, by simp [run_multiple_runs, kwScenario], by norm_num⟩
  norm_num [run_multiple_runs, doRuns, List.range'_one, kwScenario, engineParamsOf,
    simulated_annealing, finalState, saLoop, sweep, attempt, initState, mkCtx,
    effMaxIter, effProgressInterval, v0, constRng, Vec3.add, Vec3.smul, Int.toNat]

/-- C9, amended.  In a multi-run session with a configured positive cap
`M`, the reported total is `N·M`; every reported global progress value is
`(run−1)·M + i` for some run `1 ≤ run ≤ N` and some locally-reported
iteration `1 ≤ i ≤ M`, hence lies in `[1, N·M]`; and the sequence of
reported global values is non-decreasing (indeed strictly increasing).
The final reported value equals the total only when the last run reaches
the cap; when it terminates early because the temperature fell below
`Tmin`, the final value can fall short of the total (see the
counterexample). -/
theorem C9_global_progress (fuel n_runs : Nat) (initOf : Nat → Vec3)
    (rngOf : Nat → Rng) (kw : ParamKwargs) (M : Int)
    (ls : Option (LogMsg → Except Unit Unit)) (hM : kw.max_iter = some M)
    (hMpos : 0 < M) :
    (run_multiple_runs fuel n_runs initOf rngOf kw true ls).totalEstimated =
      (n_runs : Int) * M ∧
    (∀ e ∈ (run_multiple_runs fuel n_runs initOf rngOf kw true ls).progressCalls,
      e.2 = (n_runs : Int) * M ∧
      ∃ r i : Nat, 1 ≤ r ∧ r ≤ n_runs ∧ 1 ≤ i ∧ (i : Int) ≤ M ∧
        e.1 = ((r : Int) - 1) * M + (i : Int) ∧
        1 ≤ e.1 ∧ e.1 ≤ (n_runs : Int) * M) ∧
    List.Chain' (fun a b : Int => a ≤ b)
      ((run_multiple_runs fuel n_runs initOf rngOf kw true ls).progressCalls.map
        Prod.fst) := by
  obtain ⟨hmem, hsort⟩ := doRuns_events_spec fuel initOf rngOf
    (engineParamsOf { kw with progress_interval := none, log_interval := none }
      (kw.progress_interval.getD (max 1 (Int.fdiv (kw.max_iter.getD 20000) 1000)))
      (kw.log_interval.getD (max 1 (Int.fdiv (kw.max_iter.getD 20000) 200))))
    ((n_runs : Int) * kw.max_iter.getD 20000) ls (List.range' 1 n_runs)
    (List.pairwise_lt_range' 1 n_runs)
  have hPC : (run_multiple_runs fuel n_runs initOf rngOf kw true ls).progressCalls =
      (doRuns fuel initOf rngOf
        (engineParamsOf { kw with progress_interval := none, log_interval := none }
          (kw.progress_interval.getD (max 1 (Int.fdiv (kw.max_iter.getD 20000) 1000)))
          (kw.log_interval.getD (max 1 (Int.fdiv (kw.max_iter.getD 20000) 200))))
        ((n_runs : Int) * kw.max_iter.getD 20000) true ls
        (List.range' 1 n_runs)).1 := rfl
  have hgd : kw.max_iter.getD 20000 = M := by rw [hM]; rfl
  have hpmax : (engineParamsOf { kw with progress_interval := none, log_interval := none }
      (kw.progress_interval.getD (max 1 (Int.fdiv (kw.max_iter.getD 20000) 1000)))
      (kw.log_interval.getD (max 1 (Int.fdiv (kw.max_iter.getD 20000) 200)))).max_iter =
      M := by
    simp [engineParamsOf, hM]
  have hEffM : effMaxIter (engineParamsOf
      { kw with progress_interval := none, log_interval := none }
      (kw.progress_interval.getD (max 1 (Int.fdiv (kw.max_iter.getD 20000) 1000)))
      (kw.log_interval.getD (max 1 (Int.fdiv (kw.max_iter.getD 20000) 200)))) =
      M.toNat := by
    unfold effMaxIter
    rw [hpmax, if_neg (by omega)]
  have hcastM : ((M.toNat : Nat) : Int) = M := Int.toNat_of_nonneg (by omega)
  have htot : (run_multiple_runs fuel n_runs initOf rngOf kw true ls).totalEstimated =
      (n_runs : Int) * M := by
    have h0 : (run_multiple_runs fuel n_runs initOf rngOf kw true ls).totalEstimated =
        (n_runs : Int) * kw.max_iter.getD 20000 := rfl
    rw [h0, hgd]
  refine ⟨htot, ?_, ?_⟩
  · intro e he
    rw [hPC] at he
    obtain ⟨h2, r, hrmem, i, hi1, hi2, hie⟩ := hmem e he
    obtain ⟨k, hk, hreq⟩ := List.mem_range'.mp hrmem
    have hr1 : 1 ≤ r := by omega
    have hrn : r ≤ n_runs := by omega
    rw [hEffM, hcastM] at hie
    rw [hEffM] at hi2
    have hiM : (i : Int) ≤ M := by
      rw [← hcastM]
      exact_mod_cast hi2
    have hprod0 : (0 : Int) ≤ ((r : Int) - 1) * M := by
      apply mul_nonneg
      · have : (1 : Int) ≤ (r : Int) := by exact_mod_cast hr1
        omega
      · omega
    have hi1' : (1 : Int) ≤ (i : Int) := by exact_mod_cast hi1
    have hrn' : (r : Int) ≤ (n_runs : Int) := by exact_mod_cast hrn
    have hk1 : ((r : Int) - 1) * M + M = (r : Int) * M := by ring
    have hk2 : (r : Int) * M ≤ (n_runs : Int) * M :=
      mul_le_mul_of_nonneg_right hrn' (le_of_lt hMpos)
    refine ⟨by rw [h2, hgd], r, i, hr1, hrn, hi1, hiM, hie, ?_, ?_⟩
    · rw [hie]; linarith
    · rw [hie]; linarith
  · rw [hPC]
    have h1 : List.Pairwise (fun a b : Int => a ≤ b)
        (((doRuns fuel initOf rngOf
          (engineParamsOf { kw with progress_interval := none, log_interval := none }
            (kw.progress_interval.getD (max 1 (Int.fdiv (kw.max_iter.getD 20000) 1000)))
            (kw.log_interval.getD (max 1 (Int.fdiv (kw.max_iter.getD 20000) 200))))
          ((n_runs : Int) * kw.max_iter.getD 20000) true ls
          (List.range' 1 n_runs)).1).map Prod.fst) := by
      rw [List.pairwise_map]
      exact hsort.imp (fun hab => le_of_lt hab)
    exact h1.chain'

/-- The scenario kwargs with the cap lowered to 3 (the single run then
terminates by reaching the cap). -/
def kwCap3Run : ParamKwargs := { kwScenario with max_iter := some 3 }

/-- Witness for C9 at a concrete cap-reaching session (`N = 1`, `M = 3`):
the hypotheses hold and the conclusions follow by the theorem. -/
theorem C9_global_progress_witness :
    (run_multiple_runs 5 1 (fun _ => v0) (fun _ => constRng) kwCap3Run true
      none).totalEstimated = (1 : Int) * 3 ∧
    (∀ e ∈ (run_multiple_runs 5 1 (fun _ => v0) (fun _ => constRng) kwCap3Run true
      none).progressCalls,
      e.2 = (1 : Int) * 3 ∧
      ∃ r i : Nat, 1 ≤ r ∧ r ≤ 1 ∧ 1 ≤ i ∧ (i : Int) ≤ 3 ∧
        e.1 = ((r : Int) - 1) * 3 + (i : Int) ∧
        1 ≤ e.1 ∧ e.1 ≤ (1 : Int) * 3) ∧
    List.Chain' (fun a b : Int => a ≤ b)
      ((run_multiple_runs 5 1 (fun _ => v0) (fun _ => constRng) kwCap3Run true
        none).progressCalls.map Prod.fst) :=
  C9_global_progress 5 1 (fun _ => v0) (fun _ => constRng) kwCap3Run 3 none rfl
    (by norm_num)

/-- The scenario kwargs with an explicitly supplied progress interval of
2 (different from the derived default of `max(1, 100 // 1000) = 1`). -/
def kwPI2 : ParamKwargs := { kwScenario with progress_interval := some 2 }

/-- C10.  The orchestrator mutates its caller's parameter dictionary: after
any call, the dictionary's `progress_interval` and `log_interval` keys are
gone (popped before the first run).  Consequently a second call reusing the
returned dictionary falls back to the derived default intervals: with a
supplied interval of 2 the first session reports progress at iterations
1, 2, 4, while the second session on the same (now mutated) dictionary uses
the derived interval `max(1, 100 // 1000) = 1` and reports at 1, 2, 3, 4. -/
theorem C10_kwargs_mutation (fuel n_runs : Nat) (initOf : Nat → Vec3)
    (rngOf : Nat → Rng) (kw : ParamKwargs) (pp : Bool)
    (ls : Option (LogMsg → Except Unit Unit)) :
    (run_multiple_runs fuel n_runs initOf rngOf kw pp ls).kwargsAfter.progress_interval =
      none ∧
    (run_multiple_runs fuel n_runs initOf rngOf kw pp ls).kwargsAfter.log_interval =
      none ∧
    (run_multiple_runs 5 1 (fun _ => v0) (fun _ => constRng) kwPI2 true
      none).progressCalls = [(1, 100), (2, 100), (4, 100)] ∧
    (run_multiple_runs 5 1 (fun _ => v0) (fun _ => constRng)
        (run_multiple_runs 5 1 (fun _ => v0) (fun _ => constRng) kwPI2 true
          none).kwargsAfter true none).progressCalls =
      [(1, 100), (2, 100), (3, 100), (4, 100)] := by
  refine ⟨rfl, rfl, ?_, ?_⟩
  · norm_num [run_multiple_runs, doRuns, List.range'_one, kwPI2, kwScenario,
      engineParamsOf, simulated_annealing, finalState, saLoop, sweep, attempt,
      initState, mkCtx, effMaxIter, effProgressInterval, v0, constRng, Vec3.add,
      Vec3.smul, Int.toNat]
  · norm_num [run_multiple_runs, doRuns, List.range'_one, kwPI2, kwScenario,
      engineParamsOf, simulated_annealing, finalState, saLoop, sweep, attempt,
      initState, mkCtx, effMaxIter, effProgressInterval, v0, constRng, Vec3.add,
      Vec3.smul, Int.toNat, Int.fdiv]

end SAV
